import Mathlib

/-!
Verification of the AVL-tree example (src/debugger/examples/avl/avl.c).

The C code manipulates heap nodes `struct tree_node { left; right; parent;
imbalance; key; }` linked from `struct tree { root; }`.  We embed it as
follows:

* a (sub)tree reachable through owning child pointers is an inductive
  `Tree`; every node carries its machine address as an explicit `addr`
  field (two heap nodes are distinct objects even when their payloads
  agree, and `tree_put` writes the key through the address returned by
  `tree_insert_under`);
* the `parent` back-pointer chain of a node, together with the sibling
  subtrees hanging off it, is exactly a zipper context `Ctx`; the C macro
  `TREE_PARENTPTR` (the slot holding a node) corresponds to the position
  described by a `Ctx`, and `TREE_SIDEOF` to its outermost constructor;
* `malloc` is an oracle `Option Nat` holding the fresh address, `none`
  meaning allocation failure;
* a failed `assert` aborts the process, and dereferencing a null pointer
  is undefined behaviour; both are modelled as the result `none`
  (the operation does not return).
-/

namespace Avl

/-- Payload-carrying binary tree: models the heap nodes of
`struct tree_node` that are reachable through the owning `left`/`right`
pointers.  The `parent` field is not stored here; it is represented by
the zipper context `Ctx` below.  `addr` models the node's address. -/
inductive Tree where
  | nil : Tree
  | node (left : Tree) (imbalance : Int) (key : Int) (addr : Nat) (right : Tree) : Tree
deriving DecidableEq

/-- Height of a subtree (number of nodes on the longest path), the
independent measurement the spec's balance invariant refers to. -/
def height : Tree → Nat
  | Tree.nil => 0
  | Tree.node l _ _ _ r => 1 + max (height l) (height r)

/-- In-order list of (address, key) pairs of a tree. -/
def inorderData : Tree → List (Nat × Int)
  | Tree.nil => []
  | Tree.node l _ k a r => inorderData l ++ (a, k) :: inorderData r

/-- In-order list of keys. -/
def inorderKeys (t : Tree) : List Int := (inorderData t).map Prod.snd

/-- In-order list of node addresses. -/
def addrs (t : Tree) : List Nat := (inorderData t).map Prod.fst

/-- Number of nodes. -/
def size (t : Tree) : Nat := (inorderData t).length

/-- In-order list of (address, imbalance) pairs of a tree. -/
def imbData : Tree → List (Nat × Int)
  | Tree.nil => []
  | Tree.node l i _ a r => imbData l ++ (a, i) :: imbData r

/-- Keys stored at a given address (a singleton when addresses are
unique and the address is present). -/
def keysAt (a : Nat) (t : Tree) : List Int :=
  (inorderData t).filterMap (fun p => if p.1 = a then some p.2 else none)

/-- Apply a function to every key, leaving the shape, the imbalance
fields and the addresses alone.  Used to state that rebalancing never
inspects keys. -/
def mapKeys (f : Int → Int) : Tree → Tree
  | Tree.nil => Tree.nil
  | Tree.node l i k a r => Tree.node (mapKeys f l) i (f k) a (mapKeys f r)

/-- Models the statement `newNode->key = key` of `tree_put`: writing the
key through the node's address. -/
def writeKey (a : Nat) (k : Int) : Tree → Tree
  | Tree.nil => Tree.nil
  | Tree.node l i k0 a0 r =>
      Tree.node (writeKey a k l) i (if a0 = a then k else k0) a0 (writeKey a k r)

/-- Zipper context: the chain of `parent` pointers above a focused node,
with the data and the sibling subtree of each ancestor.  `inl` means the
focus is the left child of its parent (`TREE_SIDEOF = -1`), `inr` the
right child (`TREE_SIDEOF = 1`), `root` that the focus is held by
`t->root` (`parent == NULL`, `TREE_SIDEOF = 0`). -/
inductive Ctx where
  | root : Ctx
  | inl (imb : Int) (key : Int) (addr : Nat) (rsib : Tree) (up : Ctx) : Ctx
  | inr (lsib : Tree) (imb : Int) (key : Int) (addr : Nat) (up : Ctx) : Ctx
deriving DecidableEq

/-- Rebuild the whole tree from a context and the subtree in the hole. -/
def plug : Ctx → Tree → Tree
  | Ctx.root, t => t
  | Ctx.inl i k a rs up, t => plug up (Tree.node t i k a rs)
  | Ctx.inr ls i k a up, t => plug up (Tree.node ls i k a t)

/-- `mapKeys` lifted to contexts. -/
def mapKeysCtx (f : Int → Int) : Ctx → Ctx
  | Ctx.root => Ctx.root
  | Ctx.inl i k a rs up => Ctx.inl i (f k) a (mapKeys f rs) (mapKeysCtx f up)
  | Ctx.inr ls i k a up => Ctx.inr (mapKeys f ls) i (f k) a (mapKeysCtx f up)

/-- (address, key) pairs that come before the hole of a context in the
in-order traversal of the rebuilt tree. -/
def ctxLD : Ctx → List (Nat × Int)
  | Ctx.root => []
  | Ctx.inl _ _ _ _ up => ctxLD up
  | Ctx.inr ls _ k a up => ctxLD up ++ inorderData ls ++ [(a, k)]

/-- (address, key) pairs that come after the hole of a context in the
in-order traversal of the rebuilt tree. -/
def ctxRD : Ctx → List (Nat × Int)
  | Ctx.root => []
  | Ctx.inl i k a rs up => (a, k) :: inorderData rs ++ ctxRD up
  | Ctx.inr _ _ _ _ up => ctxRD up

/-- (address, imbalance) pairs before the hole, in-order. -/
def ctxLI : Ctx → List (Nat × Int)
  | Ctx.root => []
  | Ctx.inl _ _ _ _ up => ctxLI up
  | Ctx.inr ls i _ a up => ctxLI up ++ imbData ls ++ [(a, i)]

/-- (address, imbalance) pairs after the hole, in-order. -/
def ctxRI : Ctx → List (Nat × Int)
  | Ctx.root => []
  | Ctx.inl i _ a rs up => (a, i) :: imbData rs ++ ctxRI up
  | Ctx.inr _ _ _ _ up => ctxRI up

/-- Models `tree_left_rotate(node)`.  The argument is the subtree held in
the slot `*node`; the result is the subtree the slot holds afterwards.
Reading `b = a->right` and `c = b->left` requires `*node` and its right
child to be non-null (otherwise undefined behaviour, `none`).  The C
updates `a->imbalance` first and then `b->imbalance` from `a`'s already
updated value; `x > 0 ? x : 0` is written as an `if`.  The two trailing
`assert`s on the updated imbalances become the range check. -/
def tree_left_rotate : Tree → Option Tree
  | Tree.node d aImb aKey aAddr (Tree.node c bImb bKey bAddr e) =>
      if aImb > 0 then
        let aImb2 := aImb + (-1 - (if bImb > 0 then bImb else 0))
        let bImb2 := bImb + (-1 + (if aImb2 > 0 then aImb2 else 0))
        if -1 ≤ aImb2 ∧ aImb2 ≤ 1 ∧ -1 ≤ bImb2 ∧ bImb2 ≤ 1 then
          some (Tree.node (Tree.node d aImb2 aKey aAddr c) bImb2 bKey bAddr e)
        else none
      else none
  | _ => none

/-- Models `tree_right_rotate(node)`, the mirror image: `b = a->left`,
`c = b->right`, promoted `b` keeps its left subtree and receives `a` as
right child. -/
def tree_right_rotate : Tree → Option Tree
  | Tree.node (Tree.node e bImb bKey bAddr c) aImb aKey aAddr d =>
      if aImb < 0 then
        let aImb2 := aImb + (1 - (if bImb < 0 then bImb else 0))
        let bImb2 := bImb + (1 + (if aImb2 < 0 then aImb2 else 0))
        if -1 ≤ aImb2 ∧ aImb2 ≤ 1 ∧ -1 ≤ bImb2 ∧ bImb2 ≤ 1 then
          some (Tree.node e bImb2 bKey bAddr (Tree.node c aImb2 aKey aAddr d))
        else none
      else none
  | _ => none

/-- Models `tree_rotate(node)` (dispatch on the imbalance of the node in
the slot).  On `+2` it inspects `(*node)->right->imbalance` (null right
child would be undefined behaviour): negative means first right-rotate
the right child's slot, then left-rotate the node's slot; otherwise a
single left rotation.  `-2` is the mirror.  Any other imbalance value
falls through both branches and the function returns with no effect. -/
def tree_rotate : Tree → Option Tree
  | Tree.nil => none
  | Tree.node l imb k a r =>
      if imb = 2 then
        match r with
        | Tree.nil => none
        | Tree.node rl rImb rk ra rr =>
            if rImb < 0 then
              (tree_right_rotate (Tree.node rl rImb rk ra rr)).bind
                (fun r2 => tree_left_rotate (Tree.node l imb k a r2))
            else tree_left_rotate (Tree.node l imb k a (Tree.node rl rImb rk ra rr))
      else if imb = -2 then
        match l with
        | Tree.nil => none
        | Tree.node ll lImb lk la lr =>
            if lImb > 0 then
              (tree_left_rotate (Tree.node ll lImb lk la lr)).bind
                (fun l2 => tree_right_rotate (Tree.node l2 imb k a r))
            else tree_right_rotate (Tree.node (Tree.node ll lImb lk la lr) imb k a r)
      else some (Tree.node l imb k a r)

/-- Models `tree_rebalance(t, node, bf)`.  The focused node is the root
of the `Tree` argument, its parent chain is the `Ctx`; the result is the
whole tree after the call returns (`none` when an assert fails).  The
three entry `assert`s become the outer guard (the third one,
`imbalance == 0 || == bf || == 2*bf`, is implied by the first two).  The
`switch` is on `(i + bf) * bf`, whose only possible values under the
guard are 0, 1 and 2.  Case 1 recurses on the parent with
`TREE_SIDEOF(node)`; case 2 rotates the slot `TREE_PARENTPTR(t, node)`,
i.e. replaces the focused subtree by its rotation and rebuilds.  The
trailing `assert(node->imbalance ∈ {-1,0,1})` holds on every returning
path: the updated value is `0` or `bf` in cases 0 and 1, and in case 2
the rotation's own range asserts cover the node (see
`tree_rebalance_imb_mem`). -/
def tree_rebalance : Ctx → Int → Tree → Option Tree
  | _, _, Tree.nil => none
  | ctx, bf, Tree.node l i k a r =>
      if (i = 1 ∨ i = 0 ∨ i = -1) ∧ (bf = 1 ∨ bf = -1) ∧
          (i + bf = 0 ∨ i + bf = bf ∨ i + bf = 2 * bf) then
        if (i + bf) * bf = 0 then some (plug ctx (Tree.node l (i + bf) k a r))
        else if (i + bf) * bf = 1 then
          match ctx with
          | Ctx.root => some (Tree.node l (i + bf) k a r)
          | Ctx.inl pi pk pa rs up =>
              tree_rebalance up (-1) (Tree.node (Tree.node l (i + bf) k a r) pi pk pa rs)
          | Ctx.inr ls pi pk pa up =>
              tree_rebalance up 1 (Tree.node ls pi pk pa (Tree.node l (i + bf) k a r))
        else if (i + bf) * bf = 2 then
          (tree_rotate (Tree.node l (i + bf) k a r)).map (plug ctx)
        else none
      else none

/-- Outcome of the descent loop of `tree_put`. -/
inductive SlotResult where
  | found : SlotResult
  | slot (ctx : Ctx) : SlotResult
deriving DecidableEq

/-- Models the `while (*dest)` loop of `tree_put`: walk down comparing
the key (`>` goes right, `<` goes left, `=` terminates), returning the
position of the empty slot reached.  `slot Ctx.root` means the tree was
empty (`parent == NULL`). -/
def tree_find_slot (key : Int) : Tree → Ctx → SlotResult
  | Tree.nil, ctx => SlotResult.slot ctx
  | Tree.node l i k a r, ctx =>
      if key > k then tree_find_slot key r (Ctx.inr l i k a ctx)
      else if key < k then tree_find_slot key l (Ctx.inl i k a r ctx)
      else SlotResult.found

/-- Models `tree_insert_under(t, parent, right)` after a successful
`malloc` that returned address `a`.  The parent and the side are given
by the empty child slot's context (`inl`/`inr` name the parent's fields
and the parent's own context).  The fresh node is
`{ NULL, NULL, parent, 0, 0 }`; it is stored into the parent's child
pointer, then `tree_rebalance(t, parent, right ? 1 : -1)` runs.  The C
function returns the new node's address (not its position), hence the
second component. -/
def tree_insert_under (a : Nat) : Ctx → Option (Tree × Nat)
  | Ctx.root => none
  | Ctx.inl pImb pKey pAddr rs up =>
      (tree_rebalance up (-1)
        (Tree.node (Tree.node Tree.nil 0 0 a Tree.nil) pImb pKey pAddr rs)).map
        (fun t => (t, a))
  | Ctx.inr ls pImb pKey pAddr up =>
      (tree_rebalance up 1
        (Tree.node ls pImb pKey pAddr (Tree.node Tree.nil 0 0 a Tree.nil))).map
        (fun t => (t, a))

/-- Models `tree_create_root(t)` after a successful `malloc` returning
address `a`: the fresh `{ NULL, NULL, NULL, 0, 0 }` node becomes the
root, and its address is returned. -/
def tree_create_root (a : Nat) : Tree × Nat :=
  (Tree.node Tree.nil 0 0 a Tree.nil, a)

/-- Models `tree_put(t, key)`.  `alloc` is the allocator oracle: the
address `malloc` would return, or `none` for allocation failure.  On a
duplicate key the function returns with no structural change.  On
allocation failure it returns with the tree unchanged (in the
`tree_create_root` path the C stores the NULL result into `t->root`,
which was already NULL, so the tree is likewise unchanged).  Otherwise
the node is created, attached and the tree rebalanced, and finally
`newNode->key = key` is written through the returned address. -/
def tree_put (alloc : Option Nat) (t : Tree) (key : Int) : Option Tree :=
  match tree_find_slot key t Ctx.root with
  | SlotResult.found => some t
  | SlotResult.slot Ctx.root =>
      match alloc with
      | none => some t
      | some a =>
          match tree_create_root a with
          | (t1, na) => some (writeKey na key t1)
  | SlotResult.slot ctx =>
      match alloc with
      | none => some t
      | some a =>
          (tree_insert_under a ctx).map (fun p => writeKey p.2 key p.1)

/-- Runs a sequence of insertions, threading the allocator: each pair is
(address returned by malloc, key). -/
def putSeq (ps : List (Nat × Int)) (t : Tree) : Option Tree :=
  match ps with
  | [] => some t
  | p :: rest =>
      match tree_put (some p.1) t p.2 with
      | none => none
      | some t1 => putSeq rest t1

/-- Models `tree_delete_recursive(t, root)`: both child subtrees are
destroyed before `free(root)`; the function returns the sequence of
addresses passed to `free`, in order.  (The C guards the recursive calls
with null checks; recursion on `nil` contributes nothing, which is the
same behaviour.) -/
def tree_delete_recursive : Tree → List Nat
  | Tree.nil => []
  | Tree.node l _ _ a r => tree_delete_recursive l ++ tree_delete_recursive r ++ [a]

/-- Models `tree_delete(t)` acting on the tree struct: `rootField` is the
value of the `t->root` pointer (the address it holds, `none` for NULL)
and `nodes` the tree of allocated nodes it points to.  The function
frees recursively when the root is non-null; it never assigns
`t->root`, so the first component of the result — the root field after
the call — is whatever it was before. -/
def tree_delete (rootField : Option Nat) (nodes : Tree) : Option Nat × List Nat :=
  match rootField with
  | none => (none, [])
  | some p => (some p, tree_delete_recursive nodes)

/-- The address a well-formed tree struct's `root` pointer holds for a
given tree of allocated nodes: the root node's address, or NULL. -/
def rootAddr : Tree → Option Nat
  | Tree.nil => none
  | Tree.node _ _ _ a _ => some a

/-- The subtree relation (reflexive). -/
inductive IsSubtree : Tree → Tree → Prop where
  | refl (t : Tree) : IsSubtree t t
  | left {s l : Tree} (i k : Int) (a : Nat) (r : Tree) :
      IsSubtree s l → IsSubtree s (Tree.node l i k a r)
  | right {s : Tree} (l : Tree) (i k : Int) (a : Nat) {r : Tree} :
      IsSubtree s r → IsSubtree s (Tree.node l i k a r)

/-- The search-tree invariant, node-wise as the spec states it: every
key in the left subtree is smaller, every key in the right subtree
larger. -/
def BST : Tree → Prop
  | Tree.nil => True
  | Tree.node l _ k _ r =>
      (∀ k1 ∈ inorderKeys l, k1 < k) ∧ (∀ k1 ∈ inorderKeys r, k < k1) ∧ BST l ∧ BST r

/-- The balance invariant as the spec states it: every node's
`imbalance` field equals height(right) − height(left) as measured by the
independent `height` computation, and lies in {−1,0,+1}. -/
def Balanced : Tree → Prop
  | Tree.nil => True
  | Tree.node l i _ _ r =>
      i = (height r : Int) - (height l : Int) ∧ -1 ≤ i ∧ i ≤ 1 ∧ Balanced l ∧ Balanced r

instance instDecidableBST : (t : Tree) → Decidable (BST t)
  | Tree.nil => Decidable.isTrue trivial
  | Tree.node l i k a r =>
      have : Decidable (BST l) := instDecidableBST l
      have : Decidable (BST r) := instDecidableBST r
      show Decidable ((∀ k1 ∈ inorderKeys l, k1 < k) ∧ (∀ k1 ∈ inorderKeys r, k < k1) ∧
        BST l ∧ BST r) from inferInstance

instance instDecidableBalanced : (t : Tree) → Decidable (Balanced t)
  | Tree.nil => Decidable.isTrue trivial
  | Tree.node l i k a r =>
      have : Decidable (Balanced l) := instDecidableBalanced l
      have : Decidable (Balanced r) := instDecidableBalanced r
      show Decidable (i = (height r : Int) - (height l : Int) ∧ -1 ≤ i ∧ i ≤ 1 ∧
        Balanced l ∧ Balanced r) from inferInstance

/-- The tree reached by inserting keys 50, 40, 70, 60, 80 (allocator
returning addresses 1..5) into an empty tree.  It satisfies both
invariants; see `claim3_theorem`. -/
def exT5 : Tree :=
  Tree.node (Tree.node Tree.nil 0 40 2 Tree.nil) 1 50 1
    (Tree.node (Tree.node Tree.nil 0 60 4 Tree.nil) 0 70 3
      (Tree.node Tree.nil 0 80 5 Tree.nil))

/-- The tree returned by inserting 55 into `exT5` (fresh address 6).
Node 50 carries imbalance field 1, but both its subtrees have height 1:
the double rotation updated the field incorrectly. -/
def exT6 : Tree :=
  Tree.node
    (Tree.node (Tree.node Tree.nil 0 40 2 Tree.nil) 1 50 1
      (Tree.node Tree.nil 0 55 6 Tree.nil))
    0 60 4
    (Tree.node Tree.nil 1 70 3 (Tree.node Tree.nil 0 80 5 Tree.nil))

/-- The subtree on which `tree_rotate` is invoked while inserting 65
into `exT5` (fresh node at address 6, key still 0 at this point): a +2
node whose right child has imbalance −1 and whose promoted grandchild
has imbalance +1. -/
def exRotBad : Tree :=
  Tree.node (Tree.node Tree.nil 0 40 2 Tree.nil) 2 50 1
    (Tree.node (Tree.node Tree.nil 1 60 4 (Tree.node Tree.nil 0 0 6 Tree.nil)) (-1) 70 3
      (Tree.node Tree.nil 0 80 5 Tree.nil))

/-! ### Decomposition of `plug` along a context -/

theorem plug_inorderData : ∀ (ctx : Ctx) (t : Tree),
    inorderData (plug ctx t) = ctxLD ctx ++ inorderData t ++ ctxRD ctx := by
  intro ctx
  induction ctx with
  | root => intro t; simp [plug, ctxLD, ctxRD]
  | inl i k a rs up ih =>
      intro t; simp [plug, ctxLD, ctxRD, ih, inorderData, List.append_assoc]
  | inr ls i k a up ih =>
      intro t; simp [plug, ctxLD, ctxRD, ih, inorderData, List.append_assoc]

theorem plug_imbData : ∀ (ctx : Ctx) (t : Tree),
    imbData (plug ctx t) = ctxLI ctx ++ imbData t ++ ctxRI ctx := by
  intro ctx
  induction ctx with
  | root => intro t; simp [plug, ctxLI, ctxRI]
  | inl i k a rs up ih =>
      intro t; simp [plug, ctxLI, ctxRI, ih, imbData, List.append_assoc]
  | inr ls i k a up ih =>
      intro t; simp [plug, ctxLI, ctxRI, ih, imbData, List.append_assoc]

theorem imbData_map_fst : ∀ t : Tree, (imbData t).map Prod.fst = addrs t := by
  intro t
  induction t <;> simp [imbData, addrs, inorderData, *]

/-! ### Shape of successful rotations -/

theorem tree_left_rotate_shape {d c e : Tree} {ai ak bi bk : Int} {aa ba : Nat} {t' : Tree}
    (h : tree_left_rotate (Tree.node d ai ak aa (Tree.node c bi bk ba e)) = some t') :
    ∃ ai2 bi2, t' = Tree.node (Tree.node d ai2 ak aa c) bi2 bk ba e ∧
      -1 ≤ ai2 ∧ ai2 ≤ 1 ∧ -1 ≤ bi2 ∧ bi2 ≤ 1 := by
  simp only [tree_left_rotate] at h
  split_ifs at h
  all_goals try exact Option.noConfusion h
  all_goals
    injection h with h
    subst h
    refine ⟨_, _, rfl, ?_, ?_, ?_, ?_⟩ <;> omega

theorem tree_right_rotate_shape {e c d : Tree} {bi bk ai ak : Int} {ba aa : Nat} {t' : Tree}
    (h : tree_right_rotate (Tree.node (Tree.node e bi bk ba c) ai ak aa d) = some t') :
    ∃ ai2 bi2, t' = Tree.node e bi2 bk ba (Tree.node c ai2 ak aa d) ∧
      -1 ≤ ai2 ∧ ai2 ≤ 1 ∧ -1 ≤ bi2 ∧ bi2 ≤ 1 := by
  simp only [tree_right_rotate] at h
  split_ifs at h
  all_goals try exact Option.noConfusion h
  all_goals
    injection h with h
    subst h
    refine ⟨_, _, rfl, ?_, ?_, ?_, ?_⟩ <;> omega

theorem tree_left_rotate_none_nil {d : Tree} {ai ak : Int} {aa : Nat} :
    tree_left_rotate Tree.nil = none ∧
    tree_left_rotate (Tree.node d ai ak aa Tree.nil) = none := by
  constructor <;> simp [tree_left_rotate]

theorem tree_right_rotate_none_nil {d : Tree} {ai ak : Int} {aa : Nat} :
    tree_right_rotate Tree.nil = none ∧
    tree_right_rotate (Tree.node Tree.nil ai ak aa d) = none := by
  constructor <;> simp [tree_right_rotate]

/-! ### Rotations preserve the in-order (address, key) sequence -/

theorem tree_left_rotate_inorder {t t' : Tree} (h : tree_left_rotate t = some t') :
    inorderData t' = inorderData t := by
  match t with
  | Tree.nil => simp [tree_left_rotate] at h
  | Tree.node d ai ak aa Tree.nil => simp [tree_left_rotate] at h
  | Tree.node d ai ak aa (Tree.node c bi bk ba e) =>
    obtain ⟨ai2, bi2, rfl, -⟩ := tree_left_rotate_shape h
    simp [inorderData, List.append_assoc]

theorem tree_right_rotate_inorder {t t' : Tree} (h : tree_right_rotate t = some t') :
    inorderData t' = inorderData t := by
  match t with
  | Tree.nil => simp [tree_right_rotate] at h
  | Tree.node Tree.nil ai ak aa d => simp [tree_right_rotate] at h
  | Tree.node (Tree.node e bi bk ba c) ai ak aa d =>
    obtain ⟨ai2, bi2, rfl, -⟩ := tree_right_rotate_shape h
    simp [inorderData, List.append_assoc]

theorem tree_rotate_inorder {t t' : Tree} (h : tree_rotate t = some t') :
    inorderData t' = inorderData t := by
  match t with
  | Tree.nil => simp [tree_rotate] at h
  | Tree.node l imb k a r =>
    simp only [tree_rotate] at h
    split_ifs at h with h2 hm2
    · match r with
      | Tree.nil => simp at h
      | Tree.node rl ri rk ra rr =>
        simp only at h
        split_ifs at h with hri
        · rw [Option.bind_eq_some] at h
          obtain ⟨r2, hr2, hl⟩ := h
          rw [tree_left_rotate_inorder hl]
          have e1 := tree_right_rotate_inorder hr2
          simp [inorderData, e1]
        · rw [tree_left_rotate_inorder h]
    · match l with
      | Tree.nil => simp at h
      | Tree.node ll li lk la lr =>
        simp only at h
        split_ifs at h with hli
        · rw [Option.bind_eq_some] at h
          obtain ⟨l2, hl2, hr⟩ := h
          rw [tree_right_rotate_inorder hr]
          have e1 := tree_left_rotate_inorder hl2
          simp [inorderData, e1]
        · rw [tree_right_rotate_inorder h]
    · cases h
      rfl

/-! ### Rotations only introduce in-range imbalance values -/

theorem tree_left_rotate_imb_mem {t t' : Tree} (h : tree_left_rotate t = some t') :
    ∀ p ∈ imbData t', p ∈ imbData t ∨ (-1 ≤ p.2 ∧ p.2 ≤ 1) := by
  match t with
  | Tree.nil => simp [tree_left_rotate] at h
  | Tree.node d ai ak aa Tree.nil => simp [tree_left_rotate] at h
  | Tree.node d ai ak aa (Tree.node c bi bk ba e) =>
    obtain ⟨ai2, bi2, rfl, hb⟩ := tree_left_rotate_shape h
    intro p hp
    simp only [imbData, List.mem_append, List.mem_cons] at hp ⊢
    rcases hp with ((hp | rfl | hp) | rfl | hp)
    · tauto
    · exact Or.inr ⟨hb.1, hb.2.1⟩
    · tauto
    · exact Or.inr ⟨hb.2.2.1, hb.2.2.2⟩
    · tauto

theorem tree_right_rotate_imb_mem {t t' : Tree} (h : tree_right_rotate t = some t') :
    ∀ p ∈ imbData t', p ∈ imbData t ∨ (-1 ≤ p.2 ∧ p.2 ≤ 1) := by
  match t with
  | Tree.nil => simp [tree_right_rotate] at h
  | Tree.node Tree.nil ai ak aa d => simp [tree_right_rotate] at h
  | Tree.node (Tree.node e bi bk ba c) ai ak aa d =>
    obtain ⟨ai2, bi2, rfl, hb⟩ := tree_right_rotate_shape h
    intro p hp
    simp only [imbData, List.mem_append, List.mem_cons] at hp ⊢
    rcases hp with (hp | rfl | (hp | rfl | hp))
    · tauto
    · exact Or.inr ⟨hb.2.2.1, hb.2.2.2⟩
    · tauto
    · exact Or.inr ⟨hb.1, hb.2.1⟩
    · tauto

/-- Successful `tree_rotate` on a genuinely unbalanced (±2) node: every
(address, imbalance) entry of the result either comes from one of the
two child subtrees or is in {-1,0,+1}; in particular the rotated node's
own ±2 entry never survives. -/
theorem tree_rotate_imb_mem2 {l r : Tree} {imb k : Int} {a : Nat} {t' : Tree}
    (himb : imb = 2 ∨ imb = -2)
    (h : tree_rotate (Tree.node l imb k a r) = some t') :
    ∀ p ∈ imbData t', p ∈ imbData l ∨ p ∈ imbData r ∨ (-1 ≤ p.2 ∧ p.2 ≤ 1) := by
  simp only [tree_rotate] at h
  split_ifs at h with h2 hm2
  · subst h2
    match r with
    | Tree.nil => simp at h
    | Tree.node rl ri rk ra rr =>
      simp only at h
      split_ifs at h with hri
      · rw [Option.bind_eq_some] at h
        obtain ⟨r2, hr2, hl⟩ := h
        match rl with
        | Tree.nil => simp [tree_right_rotate] at hr2
        | Tree.node e1 b1 bk1 ba1 c1 =>
          obtain ⟨ai2, bi2, rfl, hb⟩ := tree_right_rotate_shape hr2
          obtain ⟨ai4, bi4, rfl, hb2⟩ := tree_left_rotate_shape hl
          intro p hp
          simp only [imbData, List.mem_append, List.mem_cons] at hp ⊢
          rcases hp with ((hp | rfl | hp) | rfl | (hp | rfl | hp))
          · tauto
          · exact Or.inr (Or.inr ⟨hb2.1, hb2.2.1⟩)
          · tauto
          · exact Or.inr (Or.inr ⟨hb2.2.2.1, hb2.2.2.2⟩)
          · tauto
          · exact Or.inr (Or.inr ⟨hb.1, hb.2.1⟩)
          · tauto
      · obtain ⟨ai4, bi4, rfl, hb2⟩ := tree_left_rotate_shape h
        intro p hp
        simp only [imbData, List.mem_append, List.mem_cons] at hp ⊢
        rcases hp with ((hp | rfl | hp) | rfl | hp)
        · tauto
        · exact Or.inr (Or.inr ⟨hb2.1, hb2.2.1⟩)
        · tauto
        · exact Or.inr (Or.inr ⟨hb2.2.2.1, hb2.2.2.2⟩)
        · tauto
  · subst hm2
    match l with
    | Tree.nil => simp at h
    | Tree.node ll li lk la lr =>
      simp only at h
      split_ifs at h with hli
      · rw [Option.bind_eq_some] at h
        obtain ⟨l2, hl2, hr⟩ := h
        match ll, lr with
        | ll, Tree.nil => simp [tree_left_rotate] at hl2
        | ll, Tree.node c1 b1 bk1 ba1 e1 =>
          obtain ⟨ai2, bi2, rfl, hb⟩ := tree_left_rotate_shape hl2
          obtain ⟨ai4, bi4, rfl, hb2⟩ := tree_right_rotate_shape hr
          intro p hp
          simp only [imbData, List.mem_append, List.mem_cons] at hp ⊢
          rcases hp with ((hp | rfl | hp) | rfl | (hp | rfl | hp))
          · tauto
          · exact Or.inr (Or.inr ⟨hb.1, hb.2.1⟩)
          · tauto
          · exact Or.inr (Or.inr ⟨hb2.2.2.1, hb2.2.2.2⟩)
          · tauto
          · exact Or.inr (Or.inr ⟨hb2.1, hb2.2.1⟩)
          · tauto
      · obtain ⟨ai4, bi4, rfl, hb2⟩ := tree_right_rotate_shape h
        intro p hp
        simp only [imbData, List.mem_append, List.mem_cons] at hp ⊢
        rcases hp with (hp | rfl | (hp | rfl | hp))
        · tauto
        · exact Or.inr (Or.inr ⟨hb2.2.2.1, hb2.2.2.2⟩)
        · tauto
        · exact Or.inr (Or.inr ⟨hb2.1, hb2.2.1⟩)
        · tauto
  · rcases himb with rfl | rfl
    · exact absurd rfl h2
    · exact absurd rfl hm2

/-! ### Rebalancing preserves the in-order (address, key) sequence -/

theorem tree_rebalance_inorder : ∀ (ctx : Ctx) (bf : Int) (t t' : Tree),
    tree_rebalance ctx bf t = some t' → inorderData t' = inorderData (plug ctx t) := by
  intro ctx
  induction ctx with
  | root =>
      intro bf t t' h
      match t with
      | Tree.nil => simp [tree_rebalance] at h
      | Tree.node l i k a r =>
        simp only [tree_rebalance] at h
        split_ifs at h with hg h0 h1 hr2
        · injection h with h
          subst h
          simp [plug_inorderData, inorderData]
        · injection h with h
          subst h
          simp [plug, inorderData]
        · rw [Option.map_eq_some'] at h
          obtain ⟨t2, ht2, rfl⟩ := h
          rw [plug_inorderData, plug_inorderData, tree_rotate_inorder ht2]
          simp [inorderData]
  | inl pi pk pa rs up ih =>
      intro bf t t' h
      match t with
      | Tree.nil => simp [tree_rebalance] at h
      | Tree.node l i k a r =>
        simp only [tree_rebalance] at h
        split_ifs at h with hg h0 h1 hr2
        · injection h with h
          subst h
          simp [plug_inorderData, inorderData]
        · rw [ih _ _ _ h]
          show inorderData (plug up _) = inorderData (plug up (Tree.node _ pi pk pa rs))
          rw [plug_inorderData, plug_inorderData]
          simp [inorderData]
        · rw [Option.map_eq_some'] at h
          obtain ⟨t2, ht2, rfl⟩ := h
          rw [plug_inorderData, plug_inorderData, tree_rotate_inorder ht2]
          simp [inorderData]
  | inr ls pi pk pa up ih =>
      intro bf t t' h
      match t with
      | Tree.nil => simp [tree_rebalance] at h
      | Tree.node l i k a r =>
        simp only [tree_rebalance] at h
        split_ifs at h with hg h0 h1 hr2
        · injection h with h
          subst h
          simp [plug_inorderData, inorderData]
        · rw [ih _ _ _ h]
          show inorderData (plug up _) = inorderData (plug up (Tree.node ls pi pk pa _))
          rw [plug_inorderData, plug_inorderData]
          simp [inorderData]
        · rw [Option.map_eq_some'] at h
          obtain ⟨t2, ht2, rfl⟩ := h
          rw [plug_inorderData, plug_inorderData, tree_rotate_inorder ht2]
          simp [inorderData]

theorem plug_imb_mem_congr (ctx : Ctx) {t1 t2 : Tree}
    (hmem : ∀ p ∈ imbData t1, p ∈ imbData t2 ∨ (-1 ≤ p.2 ∧ p.2 ≤ 1)) :
    ∀ p ∈ imbData (plug ctx t1), p ∈ imbData (plug ctx t2) ∨ (-1 ≤ p.2 ∧ p.2 ≤ 1) := by
  intro p hp
  rw [plug_imbData] at hp ⊢
  simp only [List.mem_append] at hp ⊢
  rcases hp with (hp | hp) | hp
  · tauto
  · rcases hmem p hp with h | h
    · tauto
    · tauto
  · tauto

theorem node_imb_mem {l r : Tree} {j k : Int} (i : Int) {a : Nat}
    (hj : -1 ≤ j ∧ j ≤ 1) :
    ∀ p ∈ imbData (Tree.node l j k a r),
      p ∈ imbData (Tree.node l i k a r) ∨ (-1 ≤ p.2 ∧ p.2 ≤ 1) := by
  intro p hp
  simp only [imbData, List.mem_append, List.mem_cons] at hp ⊢
  rcases hp with hp | rfl | hp
  · tauto
  · exact Or.inr hj
  · tauto

/-- Every (address, imbalance) entry after a successful `tree_rebalance`
either was already present in the tree at call time or is in {-1,0,+1}:
a propagation that returns only ever writes in-range imbalance values
(this is the trailing assert of the C function). -/
theorem tree_rebalance_imb_mem : ∀ (ctx : Ctx) (bf : Int) (t t' : Tree),
    tree_rebalance ctx bf t = some t' →
    ∀ p ∈ imbData t', p ∈ imbData (plug ctx t) ∨ (-1 ≤ p.2 ∧ p.2 ≤ 1) := by
  intro ctx
  induction ctx with
  | root =>
      intro bf t t' h
      match t with
      | Tree.nil => simp [tree_rebalance] at h
      | Tree.node l i k a r =>
        simp only [tree_rebalance] at h
        split_ifs at h with hg h0 h1 hr2
        · injection h with h
          subst h
          have hj : -1 ≤ i + bf ∧ i + bf ≤ 1 := by
            rcases hg.2.1 with rfl | rfl <;> omega
          exact plug_imb_mem_congr _ (node_imb_mem i hj)
        · injection h with h
          subst h
          have hj : -1 ≤ i + bf ∧ i + bf ≤ 1 := by
            rcases hg.2.1 with rfl | rfl <;> omega
          exact node_imb_mem i hj
        · rw [Option.map_eq_some'] at h
          obtain ⟨t2, ht2, rfl⟩ := h
          have himb : i + bf = 2 ∨ i + bf = -2 := by
            rcases hg.2.1 with rfl | rfl <;> omega
          refine plug_imb_mem_congr _ (fun p hp => ?_)
          rcases tree_rotate_imb_mem2 himb ht2 p hp with hp1 | hp1 | hp1
          · refine Or.inl ?_
            simp only [imbData, List.mem_append, List.mem_cons]
            tauto
          · refine Or.inl ?_
            simp only [imbData, List.mem_append, List.mem_cons]
            tauto
          · exact Or.inr hp1
  | inl pi pk pa rs up ih =>
      intro bf t t' h
      match t with
      | Tree.nil => simp [tree_rebalance] at h
      | Tree.node l i k a r =>
        simp only [tree_rebalance] at h
        split_ifs at h with hg h0 h1 hr2
        · injection h with h
          subst h
          have hj : -1 ≤ i + bf ∧ i + bf ≤ 1 := by
            rcases hg.2.1 with rfl | rfl <;> omega
          exact plug_imb_mem_congr _ (node_imb_mem i hj)
        · intro p hp
          have hj : -1 ≤ i + bf ∧ i + bf ≤ 1 := by
            rcases hg.2.1 with rfl | rfl <;> omega
          rcases ih _ _ _ h p hp with hp1 | hp1
          · exact plug_imb_mem_congr (Ctx.inl pi pk pa rs up)
              (node_imb_mem i hj) p hp1
          · exact Or.inr hp1
        · rw [Option.map_eq_some'] at h
          obtain ⟨t2, ht2, rfl⟩ := h
          have himb : i + bf = 2 ∨ i + bf = -2 := by
            rcases hg.2.1 with rfl | rfl <;> omega
          refine plug_imb_mem_congr _ (fun p hp => ?_)
          rcases tree_rotate_imb_mem2 himb ht2 p hp with hp1 | hp1 | hp1
          · refine Or.inl ?_
            simp only [imbData, List.mem_append, List.mem_cons]
            tauto
          · refine Or.inl ?_
            simp only [imbData, List.mem_append, List.mem_cons]
            tauto
          · exact Or.inr hp1
  | inr ls pi pk pa up ih =>
      intro bf t t' h
      match t with
      | Tree.nil => simp [tree_rebalance] at h
      | Tree.node l i k a r =>
        simp only [tree_rebalance] at h
        split_ifs at h with hg h0 h1 hr2
        · injection h with h
          subst h
          have hj : -1 ≤ i + bf ∧ i + bf ≤ 1 := by
            rcases hg.2.1 with rfl | rfl <;> omega
          exact plug_imb_mem_congr _ (node_imb_mem i hj)
        · intro p hp
          have hj : -1 ≤ i + bf ∧ i + bf ≤ 1 := by
            rcases hg.2.1 with rfl | rfl <;> omega
          rcases ih _ _ _ h p hp with hp1 | hp1
          · exact plug_imb_mem_congr (Ctx.inr ls pi pk pa up)
              (node_imb_mem i hj) p hp1
          · exact Or.inr hp1
        · rw [Option.map_eq_some'] at h
          obtain ⟨t2, ht2, rfl⟩ := h
          have himb : i + bf = 2 ∨ i + bf = -2 := by
            rcases hg.2.1 with rfl | rfl <;> omega
          refine plug_imb_mem_congr _ (fun p hp => ?_)
          rcases tree_rotate_imb_mem2 himb ht2 p hp with hp1 | hp1 | hp1
          · refine Or.inl ?_
            simp only [imbData, List.mem_append, List.mem_cons]
            tauto
          · refine Or.inl ?_
            simp only [imbData, List.mem_append, List.mem_cons]
            tauto
          · exact Or.inr hp1

/-! ### Small unfolding helpers -/

theorem inorderData_node {l r : Tree} {i k : Int} {a : Nat} :
    inorderData (Tree.node l i k a r) = inorderData l ++ (a, k) :: inorderData r := rfl

theorem inorderKeys_node {l r : Tree} {i k : Int} {a : Nat} :
    inorderKeys (Tree.node l i k a r) = inorderKeys l ++ k :: inorderKeys r := by
  simp [inorderKeys, inorderData]

theorem addrs_node {l r : Tree} {i k : Int} {a : Nat} :
    addrs (Tree.node l i k a r) = addrs l ++ a :: addrs r := by
  simp [addrs, inorderData]

theorem mem_keys_of_mem_data {t : Tree} {p : Nat × Int} (h : p ∈ inorderData t) :
    p.2 ∈ inorderKeys t := List.mem_map_of_mem Prod.snd h

/-! ### The search-tree invariant as sortedness of the in-order keys -/

theorem bst_iff_sorted : ∀ t : Tree, BST t ↔ (inorderKeys t).Sorted (fun x y => x < y) := by
  intro t
  induction t with
  | nil => simp [BST, inorderKeys, inorderData, List.Sorted]
  | node l i k a r ihl ihr =>
    rw [BST, inorderKeys_node, List.Sorted, List.pairwise_append, List.pairwise_cons]
    constructor
    · rintro ⟨hlk, hkr, hl, hr⟩
      refine ⟨ihl.1 hl, ⟨fun y hy => hkr y hy, ihr.1 hr⟩, ?_⟩
      intro x hx y hy
      rcases List.mem_cons.1 hy with rfl | hy
      · exact hlk x hx
      · exact lt_trans (hlk x hx) (hkr y hy)
    · rintro ⟨hsl, ⟨hkr, hsr⟩, hcross⟩
      exact ⟨fun x hx => hcross x hx k (List.mem_cons_self _ _),
        fun y hy => hkr y hy, ihl.2 hsl, ihr.2 hsr⟩

/-! ### The descent loop of `tree_put` -/

theorem tree_find_slot_plug (key : Int) : ∀ (t : Tree) (ctx0 ctx : Ctx),
    tree_find_slot key t ctx0 = SlotResult.slot ctx → plug ctx Tree.nil = plug ctx0 t := by
  intro t
  induction t with
  | nil =>
      intro ctx0 ctx h
      simp only [tree_find_slot, SlotResult.slot.injEq] at h
      subst h
      rfl
  | node l i k a r ihl ihr =>
      intro ctx0 ctx h
      simp only [tree_find_slot] at h
      split_ifs at h with h1 h2
      · exact ihr _ _ h
      · exact ihl _ _ h

theorem tree_find_slot_found_mem (key : Int) : ∀ (t : Tree) (ctx0 : Ctx),
    tree_find_slot key t ctx0 = SlotResult.found → key ∈ inorderKeys t := by
  intro t
  induction t with
  | nil => intro ctx0 h; exact SlotResult.noConfusion h
  | node l i k a r ihl ihr =>
      intro ctx0 h
      simp only [tree_find_slot] at h
      rw [inorderKeys_node]
      split_ifs at h with h1 h2
      · simp [ihr _ h]
      · simp [ihl _ h]
      · have : key = k := by omega
        simp [this]

theorem tree_find_slot_mem_found (key : Int) : ∀ t : Tree, BST t → key ∈ inorderKeys t →
    ∀ ctx0, tree_find_slot key t ctx0 = SlotResult.found := by
  intro t
  induction t with
  | nil => intro _ hmem; simp [inorderKeys, inorderData] at hmem
  | node l i k a r ihl ihr =>
      intro hb hmem ctx0
      obtain ⟨hlk, hkr, hbl, hbr⟩ := hb
      rw [inorderKeys_node] at hmem
      simp only [List.mem_append, List.mem_cons] at hmem
      simp only [tree_find_slot]
      split_ifs with h1 h2
      · rcases hmem with hm | rfl | hm
        · exact absurd (hlk _ hm) (by omega)
        · omega
        · exact ihr hbr hm _
      · rcases hmem with hm | rfl | hm
        · exact ihl hbl hm _
        · omega
        · exact absurd (hkr _ hm) (by omega)
      · rfl

theorem tree_find_slot_bounds (key : Int) : ∀ (t : Tree) (ctx0 ctx : Ctx), BST t →
    (∀ p ∈ ctxLD ctx0, p.2 < key) → (∀ p ∈ ctxRD ctx0, key < p.2) →
    tree_find_slot key t ctx0 = SlotResult.slot ctx →
    (∀ p ∈ ctxLD ctx, p.2 < key) ∧ (∀ p ∈ ctxRD ctx, key < p.2) := by
  intro t
  induction t with
  | nil =>
      intro ctx0 ctx hb hL hR h
      simp only [tree_find_slot, SlotResult.slot.injEq] at h
      subst h
      exact ⟨hL, hR⟩
  | node l i k a r ihl ihr =>
      intro ctx0 ctx hb hL hR h
      obtain ⟨hlk, hkr, hbl, hbr⟩ := hb
      simp only [tree_find_slot] at h
      split_ifs at h with h1 h2
      · refine ihr _ _ hbr ?_ ?_ h
        · intro p hp
          simp only [ctxLD, List.mem_append, List.mem_cons, List.not_mem_nil,
            or_false] at hp
          rcases hp with (hp | hp) | rfl
          · exact hL p hp
          · exact lt_trans (hlk _ (mem_keys_of_mem_data hp)) (by omega)
          · omega
        · intro p hp
          exact hR p hp
      · refine ihl _ _ hbl ?_ ?_ h
        · intro p hp
          exact hL p hp
        · intro p hp
          simp only [ctxRD, List.mem_cons, List.mem_append] at hp
          rcases hp with (rfl | hp) | hp
          · omega
          · exact lt_trans (by omega) (hkr _ (mem_keys_of_mem_data hp))
          · exact hR p hp

/-! ### The final key write of `tree_put` -/

theorem writeKey_inorderData (a : Nat) (k : Int) : ∀ t : Tree,
    inorderData (writeKey a k t) =
      (inorderData t).map (fun p => if p.1 = a then (a, k) else p) := by
  intro t
  induction t with
  | nil => rfl
  | node l i k0 a0 r ihl ihr =>
      simp only [writeKey, inorderData_node, List.map_append, List.map_cons, ihl, ihr]
      congr 2
      split_ifs with h
      · simp [h]
      · rfl

theorem writeKey_not_mem {a : Nat} {k : Int} {t : Tree} (h : a ∉ addrs t) :
    writeKey a k t = t := by
  induction t with
  | nil => rfl
  | node l i k0 a0 r ihl ihr =>
      rw [addrs_node] at h
      simp only [List.mem_append, List.mem_cons, not_or] at h
      rw [writeKey, ihl h.1, ihr h.2.2, if_neg (Ne.symm h.2.1)]

theorem map_keep_of_fst_ne {a : Nat} {k : Int} {L : List (Nat × Int)}
    (h : ∀ p ∈ L, p.1 ≠ a) :
    L.map (fun p => if p.1 = a then (a, k) else p) = L := by
  induction L with
  | nil => rfl
  | cons x xs ih =>
      rw [List.map_cons, if_neg (h x (List.mem_cons_self _ _)),
        ih (fun p hp => h p (List.mem_cons_of_mem _ hp))]

/-! ### Behaviour of `tree_put` -/

theorem tree_put_alloc_none : ∀ (t : Tree) (key : Int), tree_put none t key = some t := by
  intro t key
  unfold tree_put
  rcases h : tree_find_slot key t Ctx.root with _ | (_ | ctx | ctx) <;> rfl

theorem tree_put_found {t : Tree} {key : Int} (alloc : Option Nat)
    (h : tree_find_slot key t Ctx.root = SlotResult.found) :
    tree_put alloc t key = some t := by
  unfold tree_put
  rw [h]

/-- Inserting a fresh key through a fresh address: the in-order sequence
of the result is the old sequence around the hole with the new
(address, key) node in the middle. -/
theorem tree_put_fresh_inorder {t t' : Tree} {key : Int} {a : Nat} {ctx : Ctx}
    (hfresh : a ∉ addrs t)
    (hslot : tree_find_slot key t Ctx.root = SlotResult.slot ctx)
    (hput : tree_put (some a) t key = some t') :
    inorderData t' = ctxLD ctx ++ (a, key) :: ctxRD ctx := by
  have hplug : plug ctx Tree.nil = t := tree_find_slot_plug key t Ctx.root ctx hslot
  have hdec : inorderData t = ctxLD ctx ++ ctxRD ctx := by
    rw [← hplug, plug_inorderData]
    simp [inorderData]
  have hLne : ∀ p ∈ ctxLD ctx, p.1 ≠ a := by
    intro p hp hpa
    refine hfresh ?_
    rw [← hpa]
    exact List.mem_map_of_mem Prod.fst (by rw [hdec]; exact List.mem_append_left _ hp)
  have hRne : ∀ p ∈ ctxRD ctx, p.1 ≠ a := by
    intro p hp hpa
    refine hfresh ?_
    rw [← hpa]
    exact List.mem_map_of_mem Prod.fst (by rw [hdec]; exact List.mem_append_right _ hp)
  unfold tree_put at hput
  rw [hslot] at hput
  match ctx, hLne, hRne with
  | Ctx.root, hLne, hRne =>
      have : t = Tree.nil := by
        have := hplug
        simpa [plug] using this.symm
      subst this
      simp only [tree_create_root] at hput
      injection hput with hput
      subst hput
      simp [writeKey, inorderData, ctxLD, ctxRD]
  | Ctx.inl pi pk pa rs up, hLne, hRne =>
      simp only [tree_insert_under, Option.map_map, Option.map_eq_some'] at hput
      obtain ⟨t2, ht2, hw⟩ := hput
      have hio : inorderData t2 =
          ctxLD (Ctx.inl pi pk pa rs up) ++ (a, (0 : Int)) :: ctxRD (Ctx.inl pi pk pa rs up) := by
        have := tree_rebalance_inorder up (-1)
          (Tree.node (Tree.node Tree.nil 0 0 a Tree.nil) pi pk pa rs) t2 ht2
        rw [this]
        show inorderData (plug (Ctx.inl pi pk pa rs up) (Tree.node Tree.nil 0 0 a Tree.nil)) = _
        rw [plug_inorderData]
        simp [inorderData]
      rw [← hw]
      show inorderData (writeKey a key t2) = _
      rw [writeKey_inorderData, hio, List.map_append, List.map_cons,
        map_keep_of_fst_ne hLne, map_keep_of_fst_ne hRne, if_pos rfl]
  | Ctx.inr ls pi pk pa up, hLne, hRne =>
      simp only [tree_insert_under, Option.map_map, Option.map_eq_some'] at hput
      obtain ⟨t2, ht2, hw⟩ := hput
      have hio : inorderData t2 =
          ctxLD (Ctx.inr ls pi pk pa up) ++ (a, (0 : Int)) :: ctxRD (Ctx.inr ls pi pk pa up) := by
        have := tree_rebalance_inorder up 1
          (Tree.node ls pi pk pa (Tree.node Tree.nil 0 0 a Tree.nil)) t2 ht2
        rw [this]
        show inorderData (plug (Ctx.inr ls pi pk pa up) (Tree.node Tree.nil 0 0 a Tree.nil)) = _
        rw [plug_inorderData]
        simp [inorderData]
      rw [← hw]
      show inorderData (writeKey a key t2) = _
      rw [writeKey_inorderData, hio, List.map_append, List.map_cons,
        map_keep_of_fst_ne hLne, map_keep_of_fst_ne hRne, if_pos rfl]

theorem sorted_insert_middle {L R : List Int} {key : Int}
    (hs : (L ++ R).Sorted (fun x y => x < y))
    (hL : ∀ x ∈ L, x < key) (hR : ∀ y ∈ R, key < y) :
    (L ++ key :: R).Sorted (fun x y => x < y) := by
  rw [List.Sorted, List.pairwise_append] at hs ⊢
  obtain ⟨h1, h2, h3⟩ := hs
  refine ⟨h1, ?_, ?_⟩
  · rw [List.pairwise_cons]
    exact ⟨hR, h2⟩
  · intro x hx y hy
    rcases List.mem_cons.1 hy with rfl | hy
    · exact hL x hx
    · exact h3 x hx y hy

/-- Core preservation lemma: a `tree_put` call that returns leaves the
search-tree invariant intact (the rotations preserve the in-order node
sequence, the fresh node is placed at the hole the descent found, and
the final key write through the fresh address hits only the new node).
-/
theorem tree_put_bst_aux {t t' : Tree} {key : Int} {alloc : Option Nat}
    (hbst : BST t) (hfresh : ∀ a, alloc = some a → a ∉ addrs t)
    (hput : tree_put alloc t key = some t') : BST t' := by
  rcases hs : tree_find_slot key t Ctx.root with _ | ctx
  · rw [tree_put_found alloc hs] at hput
    injection hput with hput
    subst hput
    exact hbst
  · match alloc with
    | none =>
        rw [tree_put_alloc_none] at hput
        injection hput with hput
        subst hput
        exact hbst
    | some a =>
        have hfr := hfresh a rfl
        have hio := tree_put_fresh_inorder hfr hs hput
        have hplug : plug ctx Tree.nil = t := tree_find_slot_plug key t Ctx.root ctx hs
        have hdec : inorderData t = ctxLD ctx ++ ctxRD ctx := by
          rw [← hplug, plug_inorderData]
          simp [inorderData]
        have hbounds := tree_find_slot_bounds key t Ctx.root ctx hbst
          (by intro p hp; simp [ctxLD] at hp) (by intro p hp; simp [ctxRD] at hp) hs
        rw [bst_iff_sorted]
        have hkeys : inorderKeys t' =
            (ctxLD ctx).map Prod.snd ++ key :: (ctxRD ctx).map Prod.snd := by
          rw [inorderKeys, hio]
          simp
        rw [hkeys]
        refine sorted_insert_middle ?_ ?_ ?_
        · have := (bst_iff_sorted t).1 hbst
          rw [inorderKeys, hdec] at this
          simpa using this
        · intro x hx
          obtain ⟨p, hp, rfl⟩ := List.mem_map.1 hx
          exact hbounds.1 p hp
        · intro y hy
          obtain ⟨p, hp, rfl⟩ := List.mem_map.1 hy
          exact hbounds.2 p hp

theorem tree_put_fresh_size {t t' : Tree} {key : Int} {a : Nat} {ctx : Ctx}
    (hfresh : a ∉ addrs t)
    (hslot : tree_find_slot key t Ctx.root = SlotResult.slot ctx)
    (hput : tree_put (some a) t key = some t') :
    size t' = size t + 1 := by
  have hio := tree_put_fresh_inorder hfresh hslot hput
  have hplug : plug ctx Tree.nil = t := tree_find_slot_plug key t Ctx.root ctx hslot
  have hdec : inorderData t = ctxLD ctx ++ ctxRD ctx := by
    rw [← hplug, plug_inorderData]
    simp [inorderData]
  rw [size, size, hio, hdec]
  simp [List.length_append]
  omega

theorem tree_put_fresh_mem {t t' : Tree} {key : Int} {a : Nat} {ctx : Ctx}
    (hfresh : a ∉ addrs t)
    (hslot : tree_find_slot key t Ctx.root = SlotResult.slot ctx)
    (hput : tree_put (some a) t key = some t') :
    key ∈ inorderKeys t' := by
  have hio := tree_put_fresh_inorder hfresh hslot hput
  rw [inorderKeys, hio]
  simp

/-! ### Rebalancing and rotation never inspect keys -/

theorem mapKeys_node {f : Int → Int} {l r : Tree} {i k : Int} {a : Nat} :
    mapKeys f (Tree.node l i k a r) =
      Tree.node (mapKeys f l) i (f k) a (mapKeys f r) := rfl

theorem mapKeys_left_rotate (f : Int → Int) : ∀ t : Tree,
    tree_left_rotate (mapKeys f t) = (tree_left_rotate t).map (mapKeys f) := by
  intro t
  match t with
  | Tree.nil => rfl
  | Tree.node d ai ak aa Tree.nil => rfl
  | Tree.node d ai ak aa (Tree.node c bi bk ba e) =>
      simp only [mapKeys, tree_left_rotate]
      split_ifs <;> simp [mapKeys]

theorem mapKeys_right_rotate (f : Int → Int) : ∀ t : Tree,
    tree_right_rotate (mapKeys f t) = (tree_right_rotate t).map (mapKeys f) := by
  intro t
  match t with
  | Tree.nil => rfl
  | Tree.node Tree.nil ai ak aa d => rfl
  | Tree.node (Tree.node e bi bk ba c) ai ak aa d =>
      simp only [mapKeys, tree_right_rotate]
      split_ifs <;> simp [mapKeys]

theorem mapKeys_rotate (f : Int → Int) : ∀ t : Tree,
    tree_rotate (mapKeys f t) = (tree_rotate t).map (mapKeys f) := by
  intro t
  match t with
  | Tree.nil => rfl
  | Tree.node l imb k a r =>
      by_cases h2 : imb = 2
      · subst h2
        cases r with
        | nil => simp [mapKeys, tree_rotate]
        | node rl ri rk ra rr =>
            rw [mapKeys_node, mapKeys_node]
            simp only [tree_rotate, if_pos rfl]
            by_cases hri : ri < 0
            · rw [if_pos hri, if_pos hri, ← mapKeys_node, mapKeys_right_rotate]
              cases hrr : tree_right_rotate (Tree.node rl ri rk ra rr) with
              | none => simp
              | some r2 =>
                  simp only [Option.map_some', Option.some_bind, Option.bind_some]
                  rw [← mapKeys_node, mapKeys_left_rotate]
                  simp
            · rw [if_neg hri, if_neg hri, ← mapKeys_node, ← mapKeys_node,
                mapKeys_left_rotate]
              simp
      · by_cases hm2 : imb = -2
        · subst hm2
          cases l with
          | nil => simp [mapKeys, tree_rotate]
          | node ll li lk la lr =>
              rw [mapKeys_node, mapKeys_node]
              simp only [tree_rotate, if_pos rfl]
              rw [if_neg (by norm_num : ¬(-2 : Int) = 2),
                if_neg (by norm_num : ¬(-2 : Int) = 2)]
              by_cases hli : li > 0
              · rw [if_pos hli, if_pos hli, ← mapKeys_node, mapKeys_left_rotate]
                cases hll : tree_left_rotate (Tree.node ll li lk la lr) with
                | none => simp
                | some l2 =>
                    simp only [Option.map_some', Option.some_bind, Option.bind_some]
                    rw [← mapKeys_node, mapKeys_right_rotate]
                    simp
              · rw [if_neg hli, if_neg hli, ← mapKeys_node, ← mapKeys_node,
                  mapKeys_right_rotate]
                simp
        · rw [mapKeys_node]
          simp only [tree_rotate, if_neg h2, if_neg hm2]
          rw [← mapKeys_node]
          rfl

theorem mapKeys_plug (f : Int → Int) : ∀ (ctx : Ctx) (t : Tree),
    plug (mapKeysCtx f ctx) (mapKeys f t) = mapKeys f (plug ctx t) := by
  intro ctx
  induction ctx with
  | root => intro t; rfl
  | inl i k a rs up ih =>
      intro t
      rw [mapKeysCtx, plug, ← mapKeys_node, ih]
      rfl
  | inr ls i k a up ih =>
      intro t
      rw [mapKeysCtx, plug, ← mapKeys_node, ih]
      rfl

theorem mapKeys_rebalance (f : Int → Int) : ∀ (ctx : Ctx) (bf : Int) (t : Tree),
    tree_rebalance (mapKeysCtx f ctx) bf (mapKeys f t) =
      (tree_rebalance ctx bf t).map (mapKeys f) := by
  intro ctx
  induction ctx with
  | root =>
      intro bf t
      match t with
      | Tree.nil => rfl
      | Tree.node l i k a r =>
        rw [mapKeys_node]
        simp only [tree_rebalance, mapKeysCtx]
        split_ifs with hg h0 h1 hr2
        · rw [show plug Ctx.root (Tree.node (mapKeys f l) (i + bf) (f k) a (mapKeys f r))
            = mapKeys f (plug Ctx.root (Tree.node l (i + bf) k a r)) from rfl]
          rfl
        · rfl
        · rw [← mapKeys_node, mapKeys_rotate]
          cases tree_rotate (Tree.node l (i + bf) k a r) with
          | none => rfl
          | some t2 => rfl
        · rfl
        · rfl
  | inl pi pk pa rs up ih =>
      intro bf t
      match t with
      | Tree.nil => rfl
      | Tree.node l i k a r =>
        rw [mapKeys_node]
        simp only [tree_rebalance, mapKeysCtx]
        split_ifs with hg h0 h1 hr2
        · rw [show plug (Ctx.inl pi (f pk) pa (mapKeys f rs) (mapKeysCtx f up))
              (Tree.node (mapKeys f l) (i + bf) (f k) a (mapKeys f r))
            = plug (mapKeysCtx f (Ctx.inl pi pk pa rs up))
              (mapKeys f (Tree.node l (i + bf) k a r)) from rfl, mapKeys_plug]
          rfl
        · rw [show Tree.node (Tree.node (mapKeys f l) (i + bf) (f k) a (mapKeys f r))
              pi (f pk) pa (mapKeys f rs)
            = mapKeys f (Tree.node (Tree.node l (i + bf) k a r) pi pk pa rs) from rfl,
            ih]
        · rw [← mapKeys_node, mapKeys_rotate]
          cases tree_rotate (Tree.node l (i + bf) k a r) with
          | none => rfl
          | some t2 =>
              simp only [Option.map_some']
              rw [show plug (Ctx.inl pi (f pk) pa (mapKeys f rs) (mapKeysCtx f up))
                  (mapKeys f t2)
                = plug (mapKeysCtx f (Ctx.inl pi pk pa rs up)) (mapKeys f t2) from rfl,
                mapKeys_plug]
        · rfl
        · rfl
  | inr ls pi pk pa up ih =>
      intro bf t
      match t with
      | Tree.nil => rfl
      | Tree.node l i k a r =>
        rw [mapKeys_node]
        simp only [tree_rebalance, mapKeysCtx]
        split_ifs with hg h0 h1 hr2
        · rw [show plug (Ctx.inr (mapKeys f ls) pi (f pk) pa (mapKeysCtx f up))
              (Tree.node (mapKeys f l) (i + bf) (f k) a (mapKeys f r))
            = plug (mapKeysCtx f (Ctx.inr ls pi pk pa up))
              (mapKeys f (Tree.node l (i + bf) k a r)) from rfl, mapKeys_plug]
          rfl
        · rw [show Tree.node (mapKeys f ls) pi (f pk) pa
              (Tree.node (mapKeys f l) (i + bf) (f k) a (mapKeys f r))
            = mapKeys f (Tree.node ls pi pk pa (Tree.node l (i + bf) k a r)) from rfl,
            ih]
        · rw [← mapKeys_node, mapKeys_rotate]
          cases tree_rotate (Tree.node l (i + bf) k a r) with
          | none => rfl
          | some t2 =>
              simp only [Option.map_some']
              rw [show plug (Ctx.inr (mapKeys f ls) pi (f pk) pa (mapKeysCtx f up))
                  (mapKeys f t2)
                = plug (mapKeysCtx f (Ctx.inr ls pi pk pa up)) (mapKeys f t2) from rfl,
                mapKeys_plug]
        · rfl
        · rfl

/-! ### Unique addresses -/

theorem imb_unique_of_nodup {t : Tree} (hnd : (addrs t).Nodup) {p q : Nat × Int}
    (hp : p ∈ imbData t) (hq : q ∈ imbData t) (hfst : p.1 = q.1) : p = q := by
  have hnd2 : ((imbData t).map Prod.fst).Nodup := by
    rw [imbData_map_fst]
    exact hnd
  exact List.inj_on_of_nodup_map hnd2 hp hq hfst

theorem focus_mem_imbData (ctx : Ctx) (l r : Tree) (i k : Int) (a : Nat) :
    (a, i) ∈ imbData (plug ctx (Tree.node l i k a r)) := by
  rw [plug_imbData]
  simp [imbData]

/-! ### Teardown -/

theorem tree_delete_recursive_mem : ∀ (t : Tree) (x : Nat),
    x ∈ tree_delete_recursive t ↔ x ∈ addrs t := by
  intro t
  induction t with
  | nil => intro x; simp [tree_delete_recursive, addrs, inorderData]
  | node l i k a r ihl ihr =>
      intro x
      simp only [tree_delete_recursive, addrs_node, List.mem_append, List.mem_cons,
        List.not_mem_nil, or_false, ihl, ihr]
      tauto

theorem tree_delete_recursive_sublist : ∀ {s t : Tree}, IsSubtree s t →
    (tree_delete_recursive s).Sublist (tree_delete_recursive t) := by
  intro s t h
  induction h with
  | refl => exact List.Sublist.refl _
  | left i k a r hsub ih =>
      exact ih.trans ((List.sublist_append_left _ _).trans
        (List.sublist_append_left _ _))
  | right l i k a hsub ih =>
      exact ih.trans ((List.sublist_append_right _ _).trans
        (List.sublist_append_left _ _))

/-! ### Keys stored at one address -/

theorem keysAt_middle {a : Nat} {key : Int} {L R : List (Nat × Int)}
    (hL : ∀ p ∈ L, p.1 ≠ a) (hR : ∀ p ∈ R, p.1 ≠ a) :
    (L ++ (a, key) :: R).filterMap
      (fun p => if p.1 = a then some p.2 else none) = [key] := by
  induction L with
  | nil =>
      have hnone : R.filterMap (fun p => if p.1 = a then some p.2 else none) = [] :=
        List.filterMap_eq_nil_iff.2 (fun p hp => by rw [if_neg (hR p hp)])
      simp [List.filterMap_cons, hnone]
  | cons x xs ih =>
      have hx := hL x (List.mem_cons_self _ _)
      simp only [List.cons_append, List.filterMap_cons, if_neg hx]
      exact ih (fun p hp => hL p (List.mem_cons_of_mem _ hp))

theorem slot_fst_ne {t : Tree} {key : Int} {a : Nat} {ctx : Ctx}
    (hfresh : a ∉ addrs t)
    (hslot : tree_find_slot key t Ctx.root = SlotResult.slot ctx) :
    (∀ p ∈ ctxLD ctx, p.1 ≠ a) ∧ (∀ p ∈ ctxRD ctx, p.1 ≠ a) := by
  have hplug : plug ctx Tree.nil = t := tree_find_slot_plug key t Ctx.root ctx hslot
  have hdec : inorderData t = ctxLD ctx ++ ctxRD ctx := by
    rw [← hplug, plug_inorderData]
    simp [inorderData]
  constructor
  · intro p hp hpa
    refine hfresh ?_
    rw [← hpa]
    exact List.mem_map_of_mem Prod.fst (by rw [hdec]; exact List.mem_append_left _ hp)
  · intro p hp hpa
    refine hfresh ?_
    rw [← hpa]
    exact List.mem_map_of_mem Prod.fst (by rw [hdec]; exact List.mem_append_right _ hp)

/-! ### The claims -/

/-- **C1** (amended).  `tree_delete` on an empty tree is a no-op, and on
a non-empty tree it frees every allocated node and nothing else, in
strict post-order: for every subtree, the free sequence of the left
child and then of the right child entirely precede the release of the
subtree's own root, and the free sequence of every subtree occurs as a
contiguous-order-preserving subsequence of the whole free sequence.
However the struct's root field is left holding the old (now dangling)
address: the tree is not reset to the observable empty state. -/
theorem claim1_teardown (t : Tree) :
    (∀ nodes : Tree, tree_delete none nodes = (none, []))
  ∧ (∀ p, rootAddr t = some p →
      tree_delete (some p) t = (some p, tree_delete_recursive t))
  ∧ (∀ x, x ∈ tree_delete_recursive t ↔ x ∈ addrs t)
  ∧ (∀ s, IsSubtree s t →
      (tree_delete_recursive s).Sublist (tree_delete_recursive t))
  ∧ (∀ l r (i k : Int) (a : Nat), IsSubtree (Tree.node l i k a r) t →
      tree_delete_recursive (Tree.node l i k a r)
        = tree_delete_recursive l ++ tree_delete_recursive r ++ [a]) := by
  refine ⟨fun nodes => rfl, fun p hp => rfl, tree_delete_recursive_mem t,
    fun s hs => tree_delete_recursive_sublist hs, fun l r i k a hs => rfl⟩

theorem claim1_teardown_witness :
    tree_delete (some 5) (Tree.node Tree.nil 0 1 5 Tree.nil)
      = (some 5, tree_delete_recursive (Tree.node Tree.nil 0 1 5 Tree.nil))
  ∧ tree_delete_recursive (Tree.node Tree.nil 0 1 5 Tree.nil)
      = tree_delete_recursive Tree.nil ++ tree_delete_recursive Tree.nil ++ [5] :=
  ⟨(claim1_teardown (Tree.node Tree.nil 0 1 5 Tree.nil)).2.1 5 rfl,
   (claim1_teardown (Tree.node Tree.nil 0 1 5 Tree.nil)).2.2.2.2 Tree.nil Tree.nil
     0 1 5 (IsSubtree.refl _)⟩

/-- **C1**, counterexample to the claim as stated: after `tree_delete`
on a one-node tree, the root field still holds the freed node's address;
it is not empty. -/
theorem claim1_counterexample :
    (tree_delete (some 5) (Tree.node Tree.nil 0 1 5 Tree.nil)).1 = some 5
  ∧ (tree_delete (some 5) (Tree.node Tree.nil 0 1 5 Tree.nil)).1 ≠ none := by
  decide

/-- **C2** (amended).  `tree_rotate` on a slot holding a node whose
imbalance is neither +2 nor −2 is a silent no-op: both dispatch tests
fail, no assertion runs, and the function returns leaving the slot and
the whole tree unchanged (the function is documented as rotating
"if necessary"). -/
theorem claim2_rotate_noop (l r : Tree) (i k : Int) (a : Nat)
    (h2 : i ≠ 2) (hm2 : i ≠ -2) :
    tree_rotate (Tree.node l i k a r) = some (Tree.node l i k a r) := by
  simp [tree_rotate, h2, hm2]

theorem claim2_rotate_noop_witness :
    tree_rotate (Tree.node Tree.nil 0 7 3 Tree.nil)
      = some (Tree.node Tree.nil 0 7 3 Tree.nil) :=
  claim2_rotate_noop Tree.nil Tree.nil 0 7 3 (by decide) (by decide)

/-- **C2**, counterexample to the claim as stated: invoking the rotation
on a node with imbalance 1 (not ±2) does not abort — it returns
normally with the tree untouched. -/
theorem claim2_counterexample :
    tree_rotate (Tree.node Tree.nil 1 7 3 Tree.nil)
      = some (Tree.node Tree.nil 1 7 3 Tree.nil)
  ∧ tree_rotate (Tree.node Tree.nil 1 7 3 Tree.nil) ≠ none := by
  decide

/-- **C3** (code bug).  Inserting keys 50, 40, 70, 60, 80 into an empty
tree yields `exT5`, a well-formed AVL tree (search-tree ordering holds
and every imbalance field equals the measured height difference and is
in {−1,0,+1}).  Inserting key 55 then returns normally with `exT6`,
whose node 50 carries imbalance field 1 while both its subtrees have
height 1 — the double rotation updates the field incorrectly, so the
claimed balance invariant is false after a returning insert.  Inserting
65 instead aborts inside the rotation assertions. -/
theorem claim3_balance_bug :
    putSeq [(1, 50), (2, 40), (3, 70), (4, 60), (5, 80)] Tree.nil = some exT5
  ∧ BST exT5 ∧ Balanced exT5
  ∧ (6 ∉ addrs exT5)
  ∧ tree_put (some 6) exT5 55 = some exT6
  ∧ BST exT6
  ∧ ¬ Balanced exT6
  ∧ tree_put (some 6) exT5 65 = none := by
  decide

/-- **C6** (code bug).  The double-rotation path selected by
`tree_rotate` on the reachable +2 tree `exRotBad` (it occurs while
inserting 65 into `exT5`) makes the inner right-rotation compute
`b->imbalance = 2`, outside {−1,0,+1}; its own trailing assertion fails
and the operation aborts, contradicting the claimed postcondition. -/
theorem claim6_rotation_value_bug :
    tree_right_rotate
      (Tree.node (Tree.node Tree.nil 1 60 4 (Tree.node Tree.nil 0 0 6 Tree.nil))
        (-1) 70 3 (Tree.node Tree.nil 0 80 5 Tree.nil)) = none
  ∧ tree_rotate exRotBad = none := by
  decide

/-- **C4**.  For every tree satisfying the binary-search-tree ordering
and every inserted key, whenever `tree_put` returns (through any path,
including ones that performed rotations), the result again satisfies
the ordering: every node's left subtree holds only smaller keys and its
right subtree only larger ones.  The allocator is assumed to hand out
an address not already used by a node of the tree. -/
theorem claim4_bst_preserved (t t' : Tree) (key : Int) (alloc : Option Nat)
    (hbst : BST t) (hfresh : ∀ a, alloc = some a → a ∉ addrs t)
    (hput : tree_put alloc t key = some t') : BST t' :=
  tree_put_bst_aux hbst hfresh hput

theorem claim4_bst_preserved_witness :
    BST (Tree.node (Tree.node Tree.nil 0 4 2 Tree.nil) 0 5 3
      (Tree.node Tree.nil 0 12 1 Tree.nil)) :=
  claim4_bst_preserved (Tree.node (Tree.node Tree.nil 0 4 2 Tree.nil) (-1) 12 1 Tree.nil)
    (Tree.node (Tree.node Tree.nil 0 4 2 Tree.nil) 0 5 3
      (Tree.node Tree.nil 0 12 1 Tree.nil))
    5 (some 3) (by decide)
    (fun a ha => by
      injection ha with ha
      exact ha ▸ (by decide))
    (by decide)

/-- **C5**.  `tree_rebalance` on a node with stored imbalance in
{−1,0,+1} and delta in {−1,+1}: the updated value lands in
{0, delta, 2·delta}; on 0 it stops, rebuilding the unchanged ancestors;
on delta it stops at the root, and otherwise recurses to the parent
with −1 when the node is its parent's left child and +1 when right; on
2·delta it performs exactly one rotation on this node's slot and stops,
the ancestors (the context) untouched; and on every returning path the
entry for this node's address in the result is in {−1,0,+1} (addresses
assumed distinct, as they are for distinct heap nodes). -/
theorem claim5_rebalance (l r : Tree) (i bf k : Int) (a : Nat) (ctx : Ctx)
    (hi : i = -1 ∨ i = 0 ∨ i = 1) (hbf : bf = -1 ∨ bf = 1) :
    (i + bf = 0 ∨ i + bf = bf ∨ i + bf = 2 * bf)
  ∧ (i + bf = 0 →
      tree_rebalance ctx bf (Tree.node l i k a r)
        = some (plug ctx (Tree.node l (i + bf) k a r)))
  ∧ (i + bf = bf →
      (tree_rebalance Ctx.root bf (Tree.node l i k a r)
          = some (Tree.node l (i + bf) k a r))
    ∧ (∀ (pi pk : Int) (pa : Nat) (rs : Tree) (up : Ctx),
        tree_rebalance (Ctx.inl pi pk pa rs up) bf (Tree.node l i k a r)
          = tree_rebalance up (-1) (Tree.node (Tree.node l (i + bf) k a r) pi pk pa rs))
    ∧ (∀ (ls : Tree) (pi pk : Int) (pa : Nat) (up : Ctx),
        tree_rebalance (Ctx.inr ls pi pk pa up) bf (Tree.node l i k a r)
          = tree_rebalance up 1 (Tree.node ls pi pk pa (Tree.node l (i + bf) k a r))))
  ∧ (i + bf = 2 * bf →
      tree_rebalance ctx bf (Tree.node l i k a r)
        = (tree_rotate (Tree.node l (i + bf) k a r)).map (plug ctx))
  ∧ (∀ t', (addrs (plug ctx (Tree.node l i k a r))).Nodup →
      tree_rebalance ctx bf (Tree.node l i k a r) = some t' →
      ∀ p ∈ imbData t', p.1 = a → -1 ≤ p.2 ∧ p.2 ≤ 1) := by
  have hg : (i = 1 ∨ i = 0 ∨ i = -1) ∧ (bf = 1 ∨ bf = -1) ∧
      (i + bf = 0 ∨ i + bf = bf ∨ i + bf = 2 * bf) := by
    refine ⟨by tauto, by tauto, ?_⟩
    rcases hi with rfl | rfl | rfl <;> rcases hbf with rfl | rfl <;> omega
  refine ⟨hg.2.2, ?_, ?_, ?_, ?_⟩
  · intro h0
    cases ctx <;>
      · simp only [tree_rebalance, if_pos hg]
        rw [h0]
        simp
  · intro hd
    refine ⟨?_, fun pi pk pa rs up => ?_, fun ls pi pk pa up => ?_⟩ <;>
      · simp only [tree_rebalance, if_pos hg]
        rw [hd]
        rcases hbf with rfl | rfl <;> norm_num
  · intro hd
    cases ctx <;>
      · simp only [tree_rebalance, if_pos hg]
        rw [hd]
        rcases hbf with rfl | rfl <;> norm_num
  · intro t' hnd h p hp hfst
    rcases tree_rebalance_imb_mem ctx bf _ t' h p hp with hmem | hr
    · have hfoc := focus_mem_imbData ctx l r i k a
      have hpq : p = (a, i) := imb_unique_of_nodup hnd hmem hfoc hfst
      subst hpq
      refine ⟨?_, ?_⟩ <;> show _ ≤ _ <;> rcases hi with rfl | rfl | rfl <;> norm_num
    · exact hr

theorem claim5_rebalance_witness :
    tree_rebalance Ctx.root 1 (Tree.node Tree.nil (-1) 9 4 Tree.nil)
      = some (plug Ctx.root (Tree.node Tree.nil (-1 + 1) 9 4 Tree.nil)) :=
  (claim5_rebalance Tree.nil Tree.nil (-1) 1 9 4 Ctx.root
    (Or.inl rfl) (Or.inr rfl)).2.1 (by norm_num)

/-- **C7**.  Rotation-case selection of `tree_rotate`: a +2 node whose
right child has negative imbalance gets a right-rotation applied to the
right child's slot and then a left-rotation of the node's slot; with
right child imbalance ≥ 0, a single left-rotation of the node's slot;
a −2 node mirrors this on the left child (inner left-rotation first
exactly when the left child's imbalance is positive). -/
theorem claim7_rotation_cases :
    (∀ (l rl rr : Tree) (k rk ri : Int) (a ra : Nat), ri < 0 →
      tree_rotate (Tree.node l 2 k a (Tree.node rl ri rk ra rr))
        = (tree_right_rotate (Tree.node rl ri rk ra rr)).bind
            (fun r2 => tree_left_rotate (Tree.node l 2 k a r2)))
  ∧ (∀ (l rl rr : Tree) (k rk ri : Int) (a ra : Nat), 0 ≤ ri →
      tree_rotate (Tree.node l 2 k a (Tree.node rl ri rk ra rr))
        = tree_left_rotate (Tree.node l 2 k a (Tree.node rl ri rk ra rr)))
  ∧ (∀ (ll lr r : Tree) (k lk li : Int) (a la : Nat), 0 < li →
      tree_rotate (Tree.node (Tree.node ll li lk la lr) (-2) k a r)
        = (tree_left_rotate (Tree.node ll li lk la lr)).bind
            (fun l2 => tree_right_rotate (Tree.node l2 (-2) k a r)))
  ∧ (∀ (ll lr r : Tree) (k lk li : Int) (a la : Nat), li ≤ 0 →
      tree_rotate (Tree.node (Tree.node ll li lk la lr) (-2) k a r)
        = tree_right_rotate (Tree.node (Tree.node ll li lk la lr) (-2) k a r)) := by
  refine ⟨?_, ?_, ?_, ?_⟩
  · intro l rl rr k rk ri a ra h
    simp [tree_rotate, h]
  · intro l rl rr k rk ri a ra h
    simp [tree_rotate, not_lt.2 h]
  · intro ll lr r k lk li a la h
    simp [tree_rotate, h]
  · intro ll lr r k lk li a la h
    simp [tree_rotate, not_lt.2 h]

theorem claim7_rotation_cases_witness :
    tree_rotate (Tree.node Tree.nil 2 1 1 (Tree.node Tree.nil 0 2 2 Tree.nil))
      = tree_left_rotate (Tree.node Tree.nil 2 1 1 (Tree.node Tree.nil 0 2 2 Tree.nil)) :=
  claim7_rotation_cases.2.1 Tree.nil Tree.nil Tree.nil 1 2 0 1 2 (by norm_num)

/-- **C8** (amended).  Inserting a key already present in a search tree
is a structural no-op, and repeating an insertion of the same key
changes nothing further (idempotence).  Inserting a key not present,
with the allocator handing out a fresh address, *when the call returns*
increases the node count by exactly one; the new node enters the tree
as a leaf with imbalance 0 and empty children, stored into the chosen
child slot of the parent found by the descent, before rebalancing runs
(the last two conjuncts are the two `tree_insert_under` attachment
equations).  The qualification "when the call returns" is forced by the
rotation defect exhibited in `claim8_counterexample`: some fresh-key
insertions abort instead of returning. -/
theorem claim8_size_and_duplicates :
    (∀ (t : Tree) (key : Int) (alloc : Option Nat), BST t → key ∈ inorderKeys t →
      tree_put alloc t key = some t)
  ∧ (∀ (t t' : Tree) (key : Int) (a : Nat) (alloc2 : Option Nat), BST t →
      a ∉ addrs t → tree_put (some a) t key = some t' →
      tree_put alloc2 t' key = some t')
  ∧ (∀ (t t' : Tree) (key : Int) (a : Nat), key ∉ inorderKeys t → a ∉ addrs t →
      tree_put (some a) t key = some t' → size t' = size t + 1)
  ∧ (∀ (a : Nat) (pi pk : Int) (pa : Nat) (rs : Tree) (up : Ctx),
      tree_insert_under a (Ctx.inl pi pk pa rs up)
        = (tree_rebalance up (-1)
            (Tree.node (Tree.node Tree.nil 0 0 a Tree.nil) pi pk pa rs)).map
            (fun x => (x, a)))
  ∧ (∀ (a : Nat) (ls : Tree) (pi pk : Int) (pa : Nat) (up : Ctx),
      tree_insert_under a (Ctx.inr ls pi pk pa up)
        = (tree_rebalance up 1
            (Tree.node ls pi pk pa (Tree.node Tree.nil 0 0 a Tree.nil))).map
            (fun x => (x, a))) := by
  have hdup : ∀ (t : Tree) (key : Int) (alloc : Option Nat), BST t →
      key ∈ inorderKeys t → tree_put alloc t key = some t := by
    intro t key alloc hbst hmem
    exact tree_put_found alloc (tree_find_slot_mem_found key t hbst hmem Ctx.root)
  refine ⟨hdup, ?_, ?_, fun a pi pk pa rs up => rfl, fun a ls pi pk pa up => rfl⟩
  · intro t t' key a alloc2 hbst hfr hput
    by_cases hmem : key ∈ inorderKeys t
    · rw [hdup t key (some a) hbst hmem] at hput
      injection hput with hput
      subst hput
      exact hdup t key alloc2 hbst hmem
    · rcases hs : tree_find_slot key t Ctx.root with _ | ctx
      · exact absurd (tree_find_slot_found_mem key t Ctx.root hs) hmem
      · have hbst2 : BST t' := tree_put_bst_aux hbst
          (fun x hx => by injection hx with hx; exact hx ▸ hfr) hput
        exact hdup t' key alloc2 hbst2 (tree_put_fresh_mem hfr hs hput)
  · intro t t' key a hmem hfr hput
    rcases hs : tree_find_slot key t Ctx.root with _ | ctx
    · exact absurd (tree_find_slot_found_mem key t Ctx.root hs) hmem
    · exact tree_put_fresh_size hfr hs hput

theorem claim8_size_and_duplicates_witness :
    size (Tree.node Tree.nil 1 5 1 (Tree.node Tree.nil 0 9 2 Tree.nil))
      = size (Tree.node Tree.nil 0 5 1 Tree.nil) + 1
  ∧ tree_put (some 7) (Tree.node Tree.nil 0 5 1 Tree.nil) 5
      = some (Tree.node Tree.nil 0 5 1 Tree.nil) :=
  ⟨claim8_size_and_duplicates.2.2.1 (Tree.node Tree.nil 0 5 1 Tree.nil)
      (Tree.node Tree.nil 1 5 1 (Tree.node Tree.nil 0 9 2 Tree.nil)) 9 2
      (by decide) (by decide) (by decide),
   claim8_size_and_duplicates.1 (Tree.node Tree.nil 0 5 1 Tree.nil) 5 (some 7)
      (by decide) (by decide)⟩

/-- **C8**, counterexample to the claim as stated: `exT5` is a
well-formed search tree, 65 is not among its keys, address 6 is fresh,
allocation succeeds — yet `tree_put` does not return with a tree of any
size: it aborts in the rotation assertions. -/
theorem claim8_counterexample :
    BST exT5 ∧ Balanced exT5 ∧ (65 ∉ inorderKeys exT5) ∧ (6 ∉ addrs exT5)
  ∧ tree_put (some 6) exT5 65 = none := by
  decide

/-- **C9**.  When the allocator fails, `tree_put` returns with the tree
structurally unchanged — same nodes, same links, same imbalance fields
— and no node created, for every tree and key (this covers both the
`tree_insert_under` path, which checks the `malloc` result before
touching the parent, and the `tree_create_root` path, which stores the
NULL result into the already-NULL root). -/
theorem claim9_alloc_failure (t : Tree) (key : Int) :
    tree_put none t key = some t :=
  tree_put_alloc_none t key

/-- **C10**.  `tree_insert_under` returns the freshly allocated node's
address itself; rebalancing and rotation never inspect or modify keys
(they commute with an arbitrary re-keying of the whole tree, contexts
included); and consequently, whenever `tree_put` creates a node (the
descent did not find the key) through a fresh address and returns, the
final `newNode->key = key` write through the returned address lands
exactly on the newly created node: the result stores `key` at the fresh
address and nowhere else. -/
theorem claim10_fresh_node_key (t t' : Tree) (key : Int) (a : Nat)
    (hfresh : a ∉ addrs t)
    (hnew : tree_find_slot key t Ctx.root ≠ SlotResult.found)
    (hput : tree_put (some a) t key = some t') :
    keysAt a t' = [key]
  ∧ (∀ (ctx : Ctx) (res : Tree × Nat), tree_insert_under a ctx = some res →
      res.2 = a)
  ∧ (∀ (f : Int → Int) (ctx : Ctx) (bf : Int) (s : Tree),
      tree_rebalance (mapKeysCtx f ctx) bf (mapKeys f s)
        = (tree_rebalance ctx bf s).map (mapKeys f))
  ∧ (∀ (f : Int → Int) (s : Tree),
      tree_rotate (mapKeys f s) = (tree_rotate s).map (mapKeys f)) := by
  refine ⟨?_, ?_, fun f ctx bf s => mapKeys_rebalance f ctx bf s,
    fun f s => mapKeys_rotate f s⟩
  · rcases hs : tree_find_slot key t Ctx.root with _ | ctx
    · exact absurd hs hnew
    · have hio := tree_put_fresh_inorder hfresh hs hput
      have hne := slot_fst_ne hfresh hs
      rw [keysAt, hio]
      exact keysAt_middle hne.1 hne.2
  · intro ctx res h
    match ctx, h with
    | Ctx.inl pi pk pa rs up, h =>
        rw [tree_insert_under, Option.map_eq_some'] at h
        obtain ⟨t2, -, h⟩ := h
        rw [← h]
    | Ctx.inr ls pi pk pa up, h =>
        rw [tree_insert_under, Option.map_eq_some'] at h
        obtain ⟨t2, -, h⟩ := h
        rw [← h]

theorem claim10_fresh_node_key_witness :
    keysAt 2 (Tree.node Tree.nil 1 5 1 (Tree.node Tree.nil 0 9 2 Tree.nil)) = [9] :=
  (claim10_fresh_node_key (Tree.node Tree.nil 0 5 1 Tree.nil)
    (Tree.node Tree.nil 1 5 1 (Tree.node Tree.nil 0 9 2 Tree.nil)) 9 2
    (by decide) (by decide) (by decide)).1

end Avl
